import Mathlib

/-!
Shallow embedding of the aibps normalization and composite-aggregation
pipeline (src/aibps/normalize.py, src/aibps/compute.py, the per-date
row logic of app/streamlit_app.py, and the forward-fill step of the
fetch scripts).

A time series aligned to the monthly grid is a `List (Option ℚ)`:
position = date on the grid, `none` = pandas NaN.  Float arithmetic of
the source is modelled exactly over ℚ (and over ℝ for the square root /
logistic steps of `rolling_z` / `sigmoid_z`).
-/

/-- A series on the monthly grid: one optional value per date (`none` is NaN). -/
abbrev Series := List (Option ℚ)

/-- The non-missing observations of a series in date order (pandas `dropna`). -/
def obsOf (s : Series) : List ℚ := s.filterMap id

/-- Embedding of `_align_output` (normalize.py lines 26-33): the k-th core value
is placed at the position of the k-th non-missing entry of the original series,
every other position is missing. -/
def alignOut {β α : Type} : List (Option β) → List (Option α) → List (Option α)
  | [], _ => []
  | none :: rest, core => none :: alignOut rest core
  | some _ :: rest, [] => none :: alignOut rest []
  | some _ :: rest, c :: core => c :: alignOut rest core

/-- Core computation pattern shared by the causal normalizers: the value at the
j-th observation is a function of the observations at positions 0..j only. -/
def coreOf {α : Type} (g : List ℚ → Option α) (obs : List ℚ) : List (Option α) :=
  (List.range obs.length).map fun j => g (obs.take (j + 1))

/-- pandas `clip(0.0, 100.0)` on a rational. -/
def clipQ (x : ℚ) : ℚ := max 0 (min 100 x)

/-- Embedding of `window.rank(pct=True).iloc[-1] * 100` for the last element of a window
(`rank` with the default average method): average rank of the last value among
the window, divided by the window length, scaled by 100. -/
def pctRankLast (l : List ℚ) : ℚ :=
  (((l.countP fun x => decide (x < l.getLastD 0)) : ℚ) +
    (((l.countP fun x => decide (x = l.getLastD 0)) : ℚ) + 1) / 2) / (l.length : ℚ) * 100

/-- Per-observation step of `expanding_percentile` (normalize.py lines 36-60):
percentile rank of the value at the j-th observation among observations 0..j. -/
def gExp (l : List ℚ) : Option ℚ := some (clipQ (pctRankLast l))

/-- Embedding of `expanding_percentile` (normalize.py lines 36-60). -/
def expandingPercentile (s : Series) : Series := alignOut s (coreOf gExp (obsOf s))

/-- The trailing `w` observations of a prefix (the rolling window ending at the
last element of `l`). -/
def lastWindow (w : ℕ) (l : List ℚ) : List ℚ := l.drop (l.length - w)

/-- Per-observation step of `rolling_percentile` (normalize.py lines 63-83):
percentile rank of the last value among the trailing window, missing while the
window holds fewer than `mp` observations. -/
def gRollPct (w mp : ℕ) (l : List ℚ) : Option ℚ :=
  let win := lastWindow w l
  if win.length < mp then none else some (clipQ (pctRankLast win))

/-- Defaulting of `min_periods` (`max(lo, window // 4)` when the caller passes
`None`, normalize.py lines 74-75 and 99-100). -/
def defaultMP (w : ℕ) (mp : Option ℕ) (lo : ℕ) : ℕ := mp.getD (max lo (w / 4))

/-- Embedding of `rolling_percentile` (normalize.py lines 63-83). -/
def rollingPercentile (s : Series) (w : ℕ) (mp : Option ℕ) : Series :=
  alignOut s (coreOf (gRollPct w (defaultMP w mp 10)) (obsOf s))

/-- Arithmetic mean of a list of rationals (pandas `mean`). -/
def meanQ (l : List ℚ) : ℚ := l.sum / (l.length : ℚ)

/-- Sample variance with one delta degree of freedom (pandas `std` squared). -/
def sVarQ (l : List ℚ) : ℚ :=
  (l.map fun x => (x - meanQ l) ^ 2).sum / ((l.length : ℚ) - 1)

/-- Per-observation step of `rolling_z` (normalize.py lines 86-108): z-score of
the last value against the trailing window; missing when fewer than `mp`
observations, when the window has a single observation (sample std is NaN), or
when the window variance is zero (the ±inf / NaN z is replaced by NaN). -/
noncomputable def gZ (w mp : ℕ) (l : List ℚ) : Option ℝ :=
  let win := lastWindow w l
  if win.length < mp ∨ win.length < 2 then none
  else if sVarQ win = 0 then none
  else some ((((win.getLastD 0) - meanQ win : ℚ) : ℝ) / Real.sqrt ((sVarQ win : ℚ) : ℝ))

/-- Embedding of `rolling_z` (normalize.py lines 86-108), aligned to the
original index. -/
noncomputable def rollingZ (s : Series) (w : ℕ) (mp : Option ℕ) : List (Option ℝ) :=
  alignOut s (coreOf (gZ w (defaultMP w mp 6)) (obsOf s))

/-- pandas `clip(0.0, 100.0)` on a real. -/
def clipR (x : ℝ) : ℝ := max 0 (min 100 x)

/-- The logistic function `1 / (1 + exp(-x))` (normalize.py line 163). -/
noncomputable def logistic01 (x : ℝ) : ℝ := 1 / (1 + Real.exp (-x))

/-- Embedding of `sigmoid_z` (normalize.py lines 137-166): rolling z-score,
clipped to `[-z_clip, z_clip]` (numpy clip applies the lower bound first),
passed through the logistic, scaled to 0-100 and clipped. -/
noncomputable def sigmoidZ (s : Series) (w : ℕ) (mp : Option ℕ) (zc : ℚ) : List (Option ℝ) :=
  (rollingZ s w mp).map (Option.map fun z =>
    clipR (100 * logistic01 (min (zc : ℝ) (max (-(zc : ℝ)) z))))

/-- pandas `Series.quantile(q)` with the default linear interpolation over the
sorted non-missing values of the series. -/
def quantileOf (s : Series) (q : ℚ) : ℚ :=
  let l := List.insertionSort (· ≤ ·) (obsOf s)
  let pos : ℚ := q * ((l.length : ℚ) - 1)
  let h : ℕ := (⌊pos⌋).toNat
  let lo := l.getD h 0
  let hi := l.getD (h + 1) lo
  lo + (pos - (h : ℚ)) * (hi - lo)

/-- Embedding of `minmax_scale_0_100` (normalize.py lines 111-134): empirical
quantile-clipped linear scaling to 0-100; every non-missing value maps to 50
when the upper quantile does not exceed the lower one. -/
def minmaxScale (s : Series) (lq uq : ℚ) : Series :=
  if obsOf s = [] then s.map fun _ => none
  else
    let qlo := quantileOf s lq
    let qhi := quantileOf s uq
    if qhi ≤ qlo then alignOut s ((obsOf s).map fun _ => some (50 : ℚ))
    else alignOut s ((obsOf s).map fun v => some (clipQ ((v - qlo) / (qhi - qlo) * 100)))

/-- The keyword parameter bag handed to `normalize_series` (normalize.py
lines 179-220); `none` fields fall back to the dispatcher defaults. -/
structure NormParams where
  window : Option ℕ := none
  minPeriods : Option ℕ := none
  zClip : Option ℚ := none
  lowerQuantile : Option ℚ := none
  upperQuantile : Option ℚ := none

/-- Lift a rational-valued series to a real-valued one (the dispatcher returns
all methods at one type). -/
def toRSeries (s : Series) : List (Option ℝ) := s.map (Option.map fun q : ℚ => (q : ℝ))

/-- Python `str.lower()` on the method name: lowercase every character. -/
def lowerStr (s : String) : String := ⟨s.data.map Char.toLower⟩

/-- Embedding of the dispatcher `normalize_series` (normalize.py lines
179-220): the method name is lowercased, matched against the four known
methods with the documented parameter defaults, and any other name raises
`ValueError` (the spec's UnknownMethod). -/
noncomputable def normalizeSeries (s : Series) (method : String) (p : NormParams) :
    Except String (List (Option ℝ)) :=
  let m := lowerStr method
  if m = "expanding_percentile" then .ok (toRSeries (expandingPercentile s))
  else if m = "rolling_percentile" then
    .ok (toRSeries (rollingPercentile s (p.window.getD 60) p.minPeriods))
  else if m = "rolling_z_sigmoid" then
    .ok (sigmoidZ s (p.window.getD 24) p.minPeriods (p.zClip.getD 4))
  else if m = "minmax" then
    .ok (toRSeries (minmaxScale s (p.lowerQuantile.getD (1 / 100)) (p.upperQuantile.getD (99 / 100))))
  else .error ("Unknown normalization method: " ++ m)

/-- Sum of the weights of the pillars present at a date (compute.py lines
277-281: `effective_weights.sum(axis=1)` for one row). -/
def totalW (vals : List (Option ℚ)) (w : List ℚ) : ℚ :=
  ((vals.zip w).map fun p => match p.1 with | some _ => p.2 | none => 0).sum

/-- Weighted sum over the pillars present at a date (compute.py lines 278-280:
`(vals * effective_weights).sum(axis=1)` for one row). -/
def weightedSum (vals : List (Option ℚ)) (w : List ℚ) : ℚ :=
  ((vals.zip w).map fun p => match p.1 with | some v => p.2 * v | none => 0).sum

/-- Number of pillars with a non-missing value at a date (compute.py line 287:
`vals.notna().sum(axis=1)` for one row). -/
def countPresent (vals : List (Option ℚ)) : ℕ := (vals.filterMap id).length

/-- One row of the composite of compute.py lines 266-288: weighted sum divided
by the present-pillar weight total, masked to missing when that total is zero
and when fewer than 2 pillars are present. -/
def compositeRaw (vals : List (Option ℚ)) (w : List ℚ) : Option ℚ :=
  let c : Option ℚ :=
    if totalW vals w = 0 then none else some (weightedSum vals w / totalW vals w)
  if countPresent vals < 2 then none else c

/-- Modelled from the spec's effective-weight rule: the per-date weighted
average using weights zeroed at missing pillars and renormalized by the
present-pillar weight total. -/
def effWeightedSum (vals : List (Option ℚ)) (w : List ℚ) : ℚ :=
  ((vals.zip w).map fun p =>
    match p.1 with | some v => p.2 / totalW vals w * v | none => 0).sum

/-- Modelled from the spec's effective-weight rule: the sum of the effective
weights over the pillars present at a date. -/
def effWeightTotal (vals : List (Option ℚ)) (w : List ℚ) : ℚ :=
  ((vals.zip w).map fun p =>
    match p.1 with | some _ => p.2 / totalW vals w | none => 0).sum

/-- One row of the in-app recomputed composite of app/streamlit_app.py line
110: `(pillars_df * weights).sum(axis=1)` — products at missing pillars are NaN
and are skipped by the sum, the surviving weights are not renormalized. -/
def compInAppRaw (vals : List (Option ℚ)) (w : List ℚ) : ℚ :=
  ((vals.zip w).map fun p => match p.1 with | some v => p.2 * v | none => 0).sum

/-- Mean over the non-missing entries of a window, missing when the window has
no non-missing entry (pandas `mean` of a window under `min_periods = 1`). -/
def meanOfPresent (l : List (Option ℚ)) : Option ℚ :=
  let vs := l.filterMap id
  if vs = [] then none else some (vs.sum / (vs.length : ℚ))

/-- Streaming form of `rolling(3, min_periods=1).mean()` (compute.py line 291):
the two previously seen entries are carried along, the head output is the mean
of the present values among the carried pair and the current entry. -/
def rollMean3Aux : Option ℚ → Option ℚ → List (Option ℚ) → List (Option ℚ)
  | _, _, [] => []
  | a, b, x :: rest => meanOfPresent [a, b, x] :: rollMean3Aux b x rest

/-- Embedding of `base["AIBPS"].rolling(3, min_periods=1).mean()`
(compute.py line 291). -/
def rollMean3 (xs : List (Option ℚ)) : List (Option ℚ) := rollMean3Aux none none xs

/-- One step of pandas `ffill`: carry the last seen value into missing slots. -/
def ffillAux : Option ℚ → List (Option ℚ) → List (Option ℚ)
  | _, [] => []
  | last, x :: rest =>
    match x with
    | some v => some v :: ffillAux (some v) rest
    | none => last :: ffillAux last rest

/-- Embedding of the unlimited `df.ffill()` of fetch_adoption.py line 148 and
the `resample("M").ffill()` of fetch_infra_macro.py line 33, per column on the
monthly grid. -/
def ffill (xs : List (Option ℚ)) : List (Option ℚ) := ffillAux none xs

/-- Embedding of `base.dropna(subset=["AIBPS"], how="all")` (compute.py line
294): each row is a payload (date and the remaining columns) paired with its
composite value, and a row survives exactly when the composite is present. -/
def dropUndefined {α : Type} (rows : List (α × Option ℚ)) : List (α × Option ℚ) :=
  rows.filter fun r => r.2.isSome

/-! ### Helper lemmas -/

theorem alignOut_take {β α : Type} :
    ∀ (n : ℕ) (s : List (Option β)) (c : List (Option α)),
      (alignOut s c).take n = alignOut (s.take n) c
  | 0, _, _ => by simp [alignOut]
  | _ + 1, [], _ => by simp [alignOut]
  | n + 1, none :: rest, c => by
    simp only [alignOut, List.take_succ_cons]
    exact congrArg _ (alignOut_take n rest c)
  | n + 1, some b :: rest, [] => by
    simp only [alignOut, List.take_succ_cons]
    exact congrArg _ (alignOut_take n rest [])
  | n + 1, some b :: rest, c :: core => by
    simp only [alignOut, List.take_succ_cons]
    exact congrArg _ (alignOut_take n rest core)

theorem alignOut_take_core {β α : Type} :
    ∀ (s : List (Option β)) (c : List (Option α)),
      alignOut s (c.take (s.filterMap id).length) = alignOut s c
  | [], _ => by simp [alignOut]
  | none :: rest, c => by
    simp only [alignOut, List.filterMap_cons]
    exact congrArg _ (alignOut_take_core rest c)
  | some b :: rest, [] => by
    simp [alignOut]
  | some b :: rest, c :: core => by
    simp only [alignOut, List.filterMap_cons, List.length_cons, List.take_succ_cons]
    exact congrArg _ (alignOut_take_core rest core)

theorem coreOf_take {α : Type} (g : List ℚ → Option α) (obs : List ℚ) (k : ℕ) :
    (coreOf g obs).take k = coreOf g (obs.take k) := by
  unfold coreOf
  rw [← List.map_take, List.take_range, List.length_take]
  refine List.map_congr_left fun j hj => ?_
  rw [List.mem_range, Nat.lt_min] at hj
  rw [List.take_take, Nat.min_eq_left hj.1]

theorem obsOf_take_eq (s : Series) (n : ℕ) :
    (obsOf s).take (obsOf (s.take n)).length = obsOf (s.take n) := by
  have h : obsOf s = obsOf (s.take n) ++ obsOf (s.drop n) := by
    unfold obsOf
    rw [← List.filterMap_append, List.take_append_drop]
  rw [h, List.take_left]

theorem causal_align {α : Type} (g : List ℚ → Option α) (s : Series) (n : ℕ) :
    (alignOut s (coreOf g (obsOf s))).take n
      = alignOut (s.take n) (coreOf g (obsOf (s.take n))) := by
  rw [alignOut_take]
  calc alignOut (s.take n) (coreOf g (obsOf s))
      = alignOut (s.take n)
          ((coreOf g (obsOf s)).take ((s.take n).filterMap id).length) :=
        (alignOut_take_core _ _).symm
    _ = alignOut (s.take n) (coreOf g (obsOf (s.take n))) := by
        rw [coreOf_take]
        show alignOut _ (coreOf g ((obsOf s).take (obsOf (s.take n)).length)) = _
        rw [obsOf_take_eq]

theorem alignOut_obs_map {α : Type} (f : ℚ → α) :
    ∀ s : Series, alignOut s ((obsOf s).map fun v => some (f v)) = s.map (Option.map f)
  | [] => by simp [alignOut, obsOf]
  | none :: rest => by
    simp only [obsOf, List.filterMap_cons, alignOut, List.map_cons, Option.map_none']
    exact congrArg _ (alignOut_obs_map f rest)
  | some v :: rest => by
    simp only [obsOf, List.filterMap_cons, alignOut, List.map_cons, Option.map_some', id]
    exact congrArg _ (alignOut_obs_map f rest)

theorem alignOut_forall_some {β α : Type} (P : α → Prop) :
    ∀ (s : List (Option β)) (c : List (Option α)),
      (∀ o ∈ c, ∀ v, o = some v → P v) →
      ∀ o ∈ alignOut s c, ∀ v, o = some v → P v
  | [], _, _ => by simp [alignOut]
  | none :: rest, c, hc => by
    intro o ho v hv
    simp only [alignOut, List.mem_cons] at ho
    rcases ho with rfl | ho
    · exact absurd hv (by simp)
    · exact alignOut_forall_some P rest c hc o ho v hv
  | some b :: rest, [], hc => by
    intro o ho v hv
    simp only [alignOut, List.mem_cons] at ho
    rcases ho with rfl | ho
    · exact absurd hv (by simp)
    · exact alignOut_forall_some P rest [] hc o ho v hv
  | some b :: rest, c :: core, hc => by
    intro o ho v hv
    simp only [alignOut, List.mem_cons] at ho
    rcases ho with rfl | ho
    · exact hc o (List.mem_cons_self _ _) v hv
    · exact alignOut_forall_some P rest core
        (fun o' ho' => hc o' (List.mem_cons_of_mem _ ho')) o ho v hv

theorem alignOut_getD_none {β α : Type} :
    ∀ (s : List (Option β)) (c : List (Option α)) (p : ℕ),
      s.getD p none = none → (alignOut s c).getD p none = none
  | [], _, p => by simp [alignOut]
  | none :: rest, c, 0 => by simp [alignOut]
  | none :: rest, c, p + 1 => by
    intro h
    simpa [alignOut] using alignOut_getD_none rest c p (by simpa using h)
  | some b :: rest, c, 0 => by simp
  | some b :: rest, [], p + 1 => by
    intro h
    simpa [alignOut] using alignOut_getD_none rest [] p (by simpa using h)
  | some b :: rest, c :: core, p + 1 => by
    intro h
    simpa [alignOut] using alignOut_getD_none rest core p (by simpa using h)

theorem ffillAux_replicate (v : ℚ) :
    ∀ n : ℕ, ffillAux (some v) (List.replicate n none) = List.replicate n (some v)
  | 0 => rfl
  | n + 1 => by
    simp only [List.replicate_succ, ffillAux]
    exact congrArg _ (ffillAux_replicate v n)

theorem ffillAux_split (v : ℚ) (n : ℕ) :
    ∀ (front : List (Option ℚ)) (c : Option ℚ),
      ffillAux c (front ++ some v :: List.replicate n none)
        = ffillAux c front ++ List.replicate (n + 1) (some v)
  | [], c => by
    simp only [List.nil_append, ffillAux, List.replicate_succ]
    exact congrArg _ (ffillAux_replicate v n)
  | some u :: front, c => by
    simp only [List.cons_append, ffillAux]
    exact congrArg _ (ffillAux_split v n front (some u))
  | none :: front, c => by
    simp only [List.cons_append, ffillAux]
    exact congrArg _ (ffillAux_split v n front c)

theorem meanOfPresent_none_cons (l : List (Option ℚ)) :
    meanOfPresent (none :: l) = meanOfPresent l := by
  simp [meanOfPresent, List.filterMap_cons]

theorem rollMean3Aux_getD :
    ∀ (xs : List (Option ℚ)) (a b : Option ℚ) (i : ℕ), i < xs.length →
      (rollMean3Aux a b xs).getD i none
        = meanOfPresent (((a :: b :: xs).take (i + 3)).drop i)
  | [], a, b, i => by simp
  | x :: rest, a, b, 0 => by
    intro _
    simp [rollMean3Aux, List.take_succ_cons]
  | x :: rest, a, b, i + 1 => by
    intro h
    simp only [List.length_cons, Nat.add_lt_add_iff_right] at h
    simp only [rollMean3Aux, List.getD_cons_succ]
    rw [rollMean3Aux_getD rest b x i h]
    congr 1

theorem zip_match_mul_div (t : ℚ) :
    ∀ l : List (Option ℚ × ℚ),
      (l.map fun p => match p.1 with | some v => p.2 / t * v | none => 0).sum
        = (l.map fun p => match p.1 with | some v => p.2 * v | none => 0).sum / t
  | [] => by simp
  | ⟨none, u⟩ :: l => by
    simp only [List.map_cons, List.sum_cons]
    rw [zip_match_mul_div t l]
    ring
  | ⟨some v, u⟩ :: l => by
    simp only [List.map_cons, List.sum_cons]
    rw [zip_match_mul_div t l, add_div, div_mul_eq_mul_div]

theorem zip_match_div (t : ℚ) :
    ∀ l : List (Option ℚ × ℚ),
      (l.map fun p => match p.1 with | some _ => p.2 / t | none => 0).sum
        = (l.map fun p => match p.1 with | some _ => p.2 | none => 0).sum / t
  | [] => by simp
  | ⟨none, u⟩ :: l => by
    simp only [List.map_cons, List.sum_cons]
    rw [zip_match_div t l]
    ring
  | ⟨some v, u⟩ :: l => by
    simp only [List.map_cons, List.sum_cons]
    rw [zip_match_div t l, add_div]

theorem clipQ_bounds (x : ℚ) : 0 ≤ clipQ x ∧ clipQ x ≤ 100 := by
  constructor
  · exact le_max_left 0 _
  · exact max_le (by norm_num) (min_le_left 100 x)

theorem pctRankLast_append (win : List ℚ) (v : ℚ) (h : ∀ x ∈ win, x < v) :
    pctRankLast (win ++ [v]) = 100 := by
  unfold pctRankLast
  rw [List.getLastD_concat]
  have hlt : (win ++ [v]).countP (fun x => decide (x < v)) = win.length := by
    rw [List.countP_append]
    have h1 : win.countP (fun x => decide (x < v)) = win.length :=
      List.countP_eq_length.mpr fun a ha => by simpa using h a ha
    have h2 : List.countP (fun x => decide (x < v)) [v] = 0 :=
      List.countP_eq_zero.mpr (by simp)
    omega
  have heq : (win ++ [v]).countP (fun x => decide (x = v)) = 1 := by
    rw [List.countP_append]
    have h1 : win.countP (fun x => decide (x = v)) = 0 :=
      List.countP_eq_zero.mpr fun a ha => by
        simpa using ne_of_lt (h a ha)
    have h2 : List.countP (fun x => decide (x = v)) [v] = 1 := by simp
    omega
  rw [hlt, heq, List.length_append, List.length_singleton]
  have hne : ((win.length : ℚ) + 1) ≠ 0 := by positivity
  push_cast
  rw [show ((win.length : ℚ) + (1 + 1) / 2) = (win.length : ℚ) + 1 by ring,
    div_mul_eq_mul_div, div_eq_iff hne]
  ring

theorem gExp_of_strict (obs : List ℚ) (hs : List.Pairwise (· < ·) obs)
    (j : ℕ) (hj : j < obs.length) : gExp (obs.take (j + 1)) = some 100 := by
  have hpre : obs.take (j + 1) = obs.take j ++ [obs[j]] :=
    (List.take_concat_get' obs j hj).symm
  have hlt : ∀ x ∈ obs.take j, x < obs[j] := by
    intro x hx
    rw [List.mem_take_iff_getElem] at hx
    obtain ⟨i, hi, rfl⟩ := hx
    rw [Nat.lt_min] at hi
    exact List.pairwise_iff_getElem.mp hs i j hi.2 hj hi.1
  rw [hpre]
  unfold gExp
  rw [pctRankLast_append _ _ hlt]
  norm_num [clipQ]

theorem expCore_of_strict (obs : List ℚ) (hs : List.Pairwise (· < ·) obs) :
    ∀ o ∈ coreOf gExp obs, o = some 100 := by
  intro o ho
  unfold coreOf at ho
  rw [List.mem_map] at ho
  obtain ⟨j, hj, rfl⟩ := ho
  exact gExp_of_strict obs hs j (List.mem_range.mp hj)

theorem logistic01_pos (x : ℝ) : 0 < logistic01 x := by
  unfold logistic01
  have := Real.exp_pos (-x)
  positivity

theorem logistic01_lt_one (x : ℝ) : logistic01 x < 1 := by
  unfold logistic01
  have h := Real.exp_pos (-x)
  rw [div_lt_one (by linarith)]
  linarith

theorem clipR_sigmoid_bounds (x : ℝ) :
    0 < clipR (100 * logistic01 x) ∧ clipR (100 * logistic01 x) < 100 := by
  have h1 : 0 < 100 * logistic01 x := by
    have := logistic01_pos x
    linarith
  have h2 : 100 * logistic01 x < 100 := by
    have := logistic01_lt_one x
    linarith
  unfold clipR
  rw [min_eq_right h2.le, max_eq_right h1.le]
  exact ⟨h1, h2⟩

theorem all_none_of_obsOf_nil (s : Series) (h : obsOf s = []) :
    ∀ x ∈ s, x = none := by
  intro x hx
  have := List.filterMap_eq_nil_iff.mp h x hx
  simpa using this

/-! ### Claim theorems -/

/-- Claim C1, amended: the batch composite of compute.py (lines 266-288) at
every date where it is defined equals the weighted average of the present
pillar values under effective weights (missing pillars zeroed, remaining
weights divided by the present-pillar weight sum, which makes them sum to 1),
and the two numeric examples hold for it: weights [0.5, 0.3, 0.2] with pillar A
missing, B = 70, C = 50 give 62, and weights [0.6, 0.4] with values [80, 60]
give 72.  (The app-side recomputation violates the renormalization part, see
the counterexample.) -/
theorem composite_renorm_weighted_avg :
    (∀ (vals : List (Option ℚ)) (w : List ℚ), 2 ≤ countPresent vals →
      totalW vals w ≠ 0 →
      compositeRaw vals w = some (effWeightedSum vals w) ∧ effWeightTotal vals w = 1)
    ∧ compositeRaw [none, some 70, some 50] [1/2, 3/10, 1/5] = some 62
    ∧ compositeRaw [some 80, some 60] [3/5, 2/5] = some 72 := by
  refine ⟨?_, ?_, ?_⟩
  case refine_2 =>
    norm_num [compositeRaw, totalW, weightedSum, countPresent, List.zip, List.filterMap]
  case refine_3 =>
    norm_num [compositeRaw, totalW, weightedSum, countPresent, List.zip, List.filterMap]
  intro vals w h2 htw
  have hrw : effWeightedSum vals w = weightedSum vals w / totalW vals w :=
    zip_match_mul_div (totalW vals w) (vals.zip w)
  have htot : effWeightTotal vals w = totalW vals w / totalW vals w :=
    zip_match_div (totalW vals w) (vals.zip w)
  constructor
  · unfold compositeRaw
    rw [if_neg (by omega), if_neg htw, hrw]
  · rw [htot, div_self htw]

/-- Witness for C1: the renormalized-average characterization at the
missing-pillar example row. -/
theorem composite_renorm_weighted_avg_witness :
    compositeRaw [none, some 70, some 50] [1/2, 3/10, 1/5]
      = some (effWeightedSum [none, some 70, some 50] [1/2, 3/10, 1/5])
    ∧ effWeightTotal [none, some 70, some 50] [1/2, 3/10, 1/5] = 1 :=
  composite_renorm_weighted_avg.1 [none, some 70, some 50] [1/2, 3/10, 1/5]
    (by decide) (by norm_num [totalW, List.zip])

/-- Counterexample for C1 as stated: the in-app recomputed composite
(streamlit_app.py line 110) at a date with pillar A missing, B = 70, C = 50
and weights [0.5, 0.3, 0.2] is defined and equals 31, not the renormalized
weighted average 62 the claim requires. -/
theorem inapp_composite_not_renormalized :
    compInAppRaw [none, some 70, some 50] [1/2, 3/10, 1/5] = 31
    ∧ effWeightedSum [none, some 70, some 50] [1/2, 3/10, 1/5] = 62
    ∧ (31 : ℚ) ≠ 62 := by
  norm_num [compInAppRaw, effWeightedSum, totalW, List.zip]

/-- Claim C2: with fewer than 2 pillars present at a date, the composite of
compute.py (line 288) is missing, for every weight vector, every present value
and every number of configured pillars. -/
theorem composite_coverage_floor (vals : List (Option ℚ)) (w : List ℚ)
    (h : countPresent vals < 2) : compositeRaw vals w = none := by
  unfold compositeRaw
  rw [if_pos h]

/-- Witness for C2: a single present pillar of value 50 and weight 5 yields a
missing composite. -/
theorem composite_coverage_floor_witness :
    compositeRaw [some 50, none] [5, 3] = none :=
  composite_coverage_floor [some 50, none] [5, 3] (by decide)

/-- Claim C5, amended: the forward-fill of fetch_adoption.py line 148 and
fetch_infra_macro.py line 33 is unbounded — a value observed in month M is
held through every subsequent missing month with no horizon after which it
reverts to missing. -/
theorem ffill_unbounded_horizon (front : List (Option ℚ)) (v : ℚ) (n : ℕ) :
    ffill (front ++ some v :: List.replicate n none)
      = ffill front ++ List.replicate (n + 1) (some v) :=
  ffillAux_split v n front none

/-- Counterexample for C5 as stated: a source observed only in month M with
value 40 is still 40 at month M+7 (position 7 of the filled series), not
missing as the claimed 6-month horizon requires. -/
theorem ffill_value_persists_at_seven :
    ffill ([some 40] ++ List.replicate 7 none) = List.replicate 8 (some (40 : ℚ))
    ∧ (ffill ([some 40] ++ List.replicate 7 none)).getD 7 none ≠ none := by
  refine ⟨?_, ?_⟩ <;> simp [ffill, ffillAux, List.replicate]

/-- Claim C10: every row surviving `dropna(subset=["AIBPS"])` (compute.py line
294) has a present composite value, and the surviving dates form a sublist of
the monthly grid (so the persisted index is a possibly non-contiguous subset
of the grid). -/
theorem output_rows_composite_defined {α : Type} (rows : List (α × Option ℚ)) :
    ((dropUndefined rows).all fun r => r.2.isSome) = true
    ∧ ((dropUndefined rows).map Prod.fst).Sublist (rows.map Prod.fst) := by
  constructor
  · rw [List.all_eq_true]
    intro r hr
    exact (List.mem_filter.mp hr).2
  · exact (List.filter_sublist rows).map Prod.fst

/-- Claim C3, amended: the three windowed normalization methods
(expanding_percentile, rolling_percentile, rolling_z_sigmoid) are causal — two
runs whose inputs agree on all dates up to t produce identical outputs on all
dates up to t, for every window, min_periods and z_clip.  (minmax is not
causal, see the counterexample.) -/
theorem windowed_normalizers_causal (xs ys : Series) (t w : ℕ) (mp : Option ℕ)
    (zc : ℚ) (h : xs.take (t + 1) = ys.take (t + 1)) :
    (expandingPercentile xs).take (t + 1) = (expandingPercentile ys).take (t + 1)
    ∧ (rollingPercentile xs w mp).take (t + 1) = (rollingPercentile ys w mp).take (t + 1)
    ∧ (sigmoidZ xs w mp zc).take (t + 1) = (sigmoidZ ys w mp zc).take (t + 1) := by
  have hz : (rollingZ xs w mp).take (t + 1) = (rollingZ ys w mp).take (t + 1) := by
    unfold rollingZ
    rw [causal_align, causal_align, h]
  refine ⟨?_, ?_, ?_⟩
  · unfold expandingPercentile
    rw [causal_align, causal_align, h]
  · unfold rollingPercentile
    rw [causal_align, causal_align, h]
  · unfold sigmoidZ
    rw [← List.map_take, ← List.map_take, hz]

/-- Witness for C3: two series agreeing at date 0 and differing at date 1 have
equal method outputs at date 0. -/
theorem windowed_normalizers_causal_witness :
    ([some 1, some 2] : Series).take 1 = ([some 1, some 3] : Series).take 1
    ∧ ((expandingPercentile [some 1, some 2]).take 1
        = (expandingPercentile [some 1, some 3]).take 1
      ∧ (rollingPercentile [some 1, some 2] 3 none).take 1
        = (rollingPercentile [some 1, some 3] 3 none).take 1
      ∧ (sigmoidZ [some 1, some 2] 3 none 4).take 1
        = (sigmoidZ [some 1, some 3] 3 none 4).take 1) :=
  ⟨by decide, windowed_normalizers_causal [some 1, some 2] [some 1, some 3] 0 3 none 4
    (by decide)⟩

/-- Counterexample for C3 as stated: minmax is not causal — its quantiles come
from the whole series, so two inputs agreeing on dates 0..1 but differing at
date 2 already disagree at date 1 (outputs 50 versus 5). -/
theorem minmax_not_causal :
    ([some 0, some 50, some 100] : Series).take 2
      = ([some 0, some 50, some 1000] : Series).take 2
    ∧ (minmaxScale [some 0, some 50, some 100] (1/100) (99/100)).getD 1 none
      ≠ (minmaxScale [some 0, some 50, some 1000] (1/100) (99/100)).getD 1 none := by
  refine ⟨by decide, ?_⟩
  norm_num [minmaxScale, quantileOf, obsOf, List.filterMap, List.insertionSort,
    List.orderedInsert, alignOut, clipQ, List.getD]
  simp

/-- Claim C4: the smoothed composite (compute.py line 291) at position i is the
mean of the non-missing raw composite values among the last 3 dates ending at
i (missing only when all three are missing); at the first date it equals the
raw composite; on [10, 20, 30, 40] it yields [10, 15, 20, 30]. -/
theorem smoothing_trailing_mean3 :
    (∀ (xs : List (Option ℚ)) (i : ℕ), i < xs.length →
      (rollMean3 xs).getD i none = meanOfPresent ((xs.take (i + 1)).drop (i - 2)))
    ∧ (∀ xs : List (Option ℚ), (rollMean3 xs).getD 0 none = xs.getD 0 none)
    ∧ rollMean3 [some 10, some 20, some 30, some 40]
      = [some 10, some 15, some 20, some 30] := by
  refine ⟨?_, ?_, ?_⟩
  · intro xs i hi
    rw [rollMean3, rollMean3Aux_getD xs none none i hi]
    match i with
    | 0 => simp [meanOfPresent_none_cons, List.take_succ_cons]
    | 1 => simp [meanOfPresent_none_cons, List.take_succ_cons]
    | (j + 2) =>
      show meanOfPresent (((none :: none :: xs).take (j + 2 + 3)).drop (j + 2)) = _
      rw [show j + 2 + 3 = (j + 3) + 1 + 1 by ring, List.take_succ_cons,
        List.take_succ_cons, List.drop_succ_cons, List.drop_succ_cons]
      rw [show j + 2 + 1 = j + 3 by ring, show j + 2 - 2 = j by omega]
  · intro xs
    match xs with
    | [] => rfl
    | none :: rest => simp [rollMean3, rollMean3Aux, meanOfPresent]
    | some v :: rest => simp [rollMean3, rollMean3Aux, meanOfPresent]
  · norm_num [rollMean3, rollMean3Aux, meanOfPresent, List.filterMap]
    simp

/-- Witness for C4: the window characterization at position 2 of a series with
a missing middle value. -/
theorem smoothing_trailing_mean3_witness :
    (rollMean3 [some 10, none, some 30]).getD 2 none
      = meanOfPresent ((([some 10, none, some 30] : List (Option ℚ)).take 3).drop 0) :=
  smoothing_trailing_mean3.1 [some 10, none, some 30] 2 (by decide)

/-- Claim C6, amended: for a series whose observations are strictly increasing
the defined outputs of expanding_percentile are non-decreasing; every defined
output lies in [0, 100]; the output is missing at every missing input
position, in particular before the first observation.  (With ties allowed the
monotonicity fails, see the counterexample.) -/
theorem expanding_percentile_props (s : Series) :
    (List.Pairwise (· < ·) (obsOf s) →
      List.Pairwise (· ≤ ·) ((expandingPercentile s).filterMap id))
    ∧ (∀ o ∈ expandingPercentile s, ∀ v, o = some v → 0 ≤ v ∧ v ≤ 100)
    ∧ (∀ p : ℕ, s.getD p none = none → (expandingPercentile s).getD p none = none) := by
  refine ⟨?_, ?_, ?_⟩
  · intro hs
    have h100 : ∀ o ∈ expandingPercentile s, ∀ v, o = some v → v = 100 := by
      refine alignOut_forall_some _ s _ fun o ho v hv => ?_
      rw [expCore_of_strict (obsOf s) hs o ho] at hv
      exact (Option.some_inj.mp hv).symm
    refine List.pairwise_of_forall_mem_list fun a ha b hb => ?_
    rw [List.mem_filterMap] at ha hb
    obtain ⟨oa, hoa, ha'⟩ := ha
    obtain ⟨ob, hob, hb'⟩ := hb
    rw [h100 oa hoa a (by simpa using ha'), h100 ob hob b (by simpa using hb')]
  · refine alignOut_forall_some _ s _ fun o ho v hv => ?_
    unfold coreOf at ho
    rw [List.mem_map] at ho
    obtain ⟨j, hj, rfl⟩ := ho
    unfold gExp at hv
    rw [← Option.some_inj.mp hv]
    exact clipQ_bounds _
  · intro p hp
    exact alignOut_getD_none s _ p hp

/-- Witness for C6: the strictly increasing series [1, 2] after a missing
date. -/
theorem expanding_percentile_props_witness :
    List.Pairwise (· < ·) (obsOf [none, some 1, some 2])
    ∧ List.Pairwise (· ≤ ·) ((expandingPercentile [none, some 1, some 2]).filterMap id)
    ∧ (0 ≤ (100 : ℚ) ∧ (100 : ℚ) ≤ 100)
    ∧ (expandingPercentile [none, some 1, some 2]).getD 0 none = none :=
  ⟨by decide,
   (expanding_percentile_props [none, some 1, some 2]).1 (by decide),
   (expanding_percentile_props [none, some 1, some 2]).2.1 (some 100)
     (by
       have h : expandingPercentile [none, some 1, some 2]
           = [none, some 100, some 100] := by
         norm_num [expandingPercentile, obsOf, alignOut, coreOf, List.range,
           List.range.loop, gExp, clipQ, pctRankLast, List.countP, List.countP.go,
           List.filterMap, List.take, List.getLast?, List.getLastD]
       rw [h]
       simp)
     100 rfl,
   (expanding_percentile_props [none, some 1, some 2]).2.2 0 (by decide)⟩

/-- Counterexample for C6 as stated: the tied non-decreasing series [1, 1]
produces outputs [100, 75], whose defined sequence decreases. -/
theorem expanding_percentile_tie_decreases :
    expandingPercentile [some 1, some 1] = [some 100, some 75]
    ∧ ¬ List.Pairwise (· ≤ ·) ((expandingPercentile [some 1, some 1]).filterMap id) := by
  have h : expandingPercentile [some 1, some 1] = [some 100, some 75] := by
    norm_num [expandingPercentile, obsOf, alignOut, coreOf, List.range, List.range.loop,
      gExp, clipQ, pctRankLast, List.countP, List.countP.go, List.filterMap, List.take,
      List.getLast?, List.getLastD]
  refine ⟨h, ?_⟩
  rw [h]
  norm_num [List.filterMap, List.pairwise_cons]

/-- Claim C7: every defined output of sigmoid_z lies strictly inside (0, 100)
for every series, window, min_periods and z_clip; a missing or out-of-range
position is read as the interior placeholder 50, so the statement quantifies
over all positions without hypotheses. -/
theorem sigmoid_z_open_interval (s : Series) (w : ℕ) (mp : Option ℕ) (zc : ℚ) (i : ℕ) :
    0 < ((sigmoidZ s w mp zc).getD i (some 50)).getD 50
    ∧ ((sigmoidZ s w mp zc).getD i (some 50)).getD 50 < 100 := by
  rw [List.getD_eq_getElem?_getD]
  unfold sigmoidZ
  rw [List.getElem?_map]
  rcases h : (rollingZ s w mp)[i]? with _ | o
  · norm_num
  · rcases o with _ | z
    · norm_num
    · simpa using clipR_sigmoid_bounds (min (zc : ℝ) (max (-(zc : ℝ)) z))

/-- Claim C8: the dispatcher normalize_series errors on every method name that
matches (case-insensitively) none of the four known methods, and on each known
name returns the corresponding transform with the supplied parameters
forwarded under the documented defaults. -/
theorem normalize_series_dispatch :
    (∀ (s : Series) (p : NormParams) (m : String),
      lowerStr m ∉ ["expanding_percentile", "rolling_percentile", "rolling_z_sigmoid",
        "minmax"] →
      normalizeSeries s m p = .error ("Unknown normalization method: " ++ lowerStr m))
    ∧ (∀ (s : Series) (p : NormParams) (m : String), lowerStr m = "expanding_percentile" →
      normalizeSeries s m p = .ok (toRSeries (expandingPercentile s)))
    ∧ (∀ (s : Series) (p : NormParams) (m : String), lowerStr m = "rolling_percentile" →
      normalizeSeries s m p
        = .ok (toRSeries (rollingPercentile s (p.window.getD 60) p.minPeriods)))
    ∧ (∀ (s : Series) (p : NormParams) (m : String), lowerStr m = "rolling_z_sigmoid" →
      normalizeSeries s m p
        = .ok (sigmoidZ s (p.window.getD 24) p.minPeriods (p.zClip.getD 4)))
    ∧ (∀ (s : Series) (p : NormParams) (m : String), lowerStr m = "minmax" →
      normalizeSeries s m p
        = .ok (toRSeries (minmaxScale s (p.lowerQuantile.getD (1 / 100))
            (p.upperQuantile.getD (99 / 100))))) := by
  refine ⟨?_, ?_, ?_, ?_, ?_⟩
  · intro s p m hm
    simp only [List.mem_cons, List.not_mem_nil, or_false, not_or] at hm
    simp only [normalizeSeries]
    rw [if_neg hm.1, if_neg hm.2.1, if_neg hm.2.2.1, if_neg hm.2.2.2]
  · intro s p m hm
    simp only [normalizeSeries]
    rw [hm, if_pos rfl]
  · intro s p m hm
    simp only [normalizeSeries]
    rw [hm, if_neg (by decide), if_pos rfl]
  · intro s p m hm
    simp only [normalizeSeries]
    rw [hm, if_neg (by decide), if_neg (by decide), if_pos rfl]
  · intro s p m hm
    simp only [normalizeSeries]
    rw [hm, if_neg (by decide), if_neg (by decide), if_neg (by decide), if_pos rfl]

/-- Witness for C8: an unknown name errors and a case-variant known name
dispatches to minmax. -/
theorem normalize_series_dispatch_witness :
    normalizeSeries [] "Bogus" ⟨none, none, none, none, none⟩
      = .error ("Unknown normalization method: " ++ lowerStr "Bogus")
    ∧ normalizeSeries [] "MinMax" ⟨none, none, none, none, none⟩
      = .ok (toRSeries (minmaxScale [] (1 / 100) (99 / 100))) :=
  ⟨normalize_series_dispatch.1 [] ⟨none, none, none, none, none⟩ "Bogus" (by decide),
   normalize_series_dispatch.2.2.2.2 [] ⟨none, none, none, none, none⟩ "MinMax"
     (by decide)⟩

/-- Claim C9: when the empirical lower and upper quantiles of a series
coincide, minmax_scale_0_100 maps every present value to exactly 50 and keeps
every missing position missing (no division by zero is ever performed). -/
theorem minmax_degenerate_fifty (s : Series) (lq uq : ℚ)
    (h : quantileOf s uq = quantileOf s lq) :
    minmaxScale s lq uq = s.map (Option.map fun _ : ℚ => (50 : ℚ)) := by
  by_cases hobs : obsOf s = []
  · rw [minmaxScale, if_pos hobs]
    refine List.map_congr_left fun x hx => ?_
    rw [all_none_of_obsOf_nil s hobs x hx]
    rfl
  · rw [minmaxScale, if_neg hobs]
    simp only []
    rw [if_pos (le_of_eq h)]
    exact alignOut_obs_map (fun _ => (50 : ℚ)) s

/-- Witness for C9: a constant series with a gap maps to 50 at present
positions and stays missing at the gap. -/
theorem minmax_degenerate_fifty_witness :
    quantileOf [some 5, none, some 5] (99 / 100) = quantileOf [some 5, none, some 5] (1 / 100)
    ∧ minmaxScale [some 5, none, some 5] (1 / 100) (99 / 100)
      = ([some 5, none, some 5] : Series).map (Option.map fun _ : ℚ => (50 : ℚ)) :=
  ⟨by norm_num [quantileOf, obsOf, List.filterMap, List.insertionSort, List.orderedInsert,
      List.getD],
   minmax_degenerate_fifty [some 5, none, some 5] (1 / 100) (99 / 100)
     (by norm_num [quantileOf, obsOf, List.filterMap, List.insertionSort,
       List.orderedInsert, List.getD])⟩
